import Mathlib

/-!
Verification of the value-codec detection and decoding subsystem of the
ChromeStorageManager extension (codec classes, CodecManager, codec worker).

Modelling conventions:
* A JavaScript string is modelled as a `List Char` (`JSStr`).  All characters
  appearing in the subsystem's logic are in the basic multilingual plane, so a
  UTF-16 code unit corresponds to one `Char`.
* Platform functions (`atob`, `decodeURIComponent`, `JSON.parse`,
  `JSON.stringify`) are implemented from their standard semantics
  (WHATWG forgiving-base64, ECMAScript Decode, the JSON grammar).
  `JSON.stringify(JSON.parse s, null, 2)` is modelled by a parser producing an
  abstract syntax tree followed by an indenting serializer; number and string
  atoms keep their source lexeme verbatim (JavaScript would re-serialize the
  numeric double value and re-escape strings, a difference none of the
  verified properties inspect).
* JavaScript's floating point comparisons `x / y > 0.9` (and `> 0.95`,
  `> 1.1`, `> 0.5`) on character-count ratios are modelled by the exact
  rational comparisons `10 * x > 9 * y` etc.; the two disagree only for
  strings longer than 10^15 characters, far beyond any representable string.
* The bundled LZString library is not part of the extracted sources; its four
  decompression entry points are an abstract parameter (`LZ`), with `none`
  standing for a thrown exception or a `null` return.
-/

/-- A JavaScript string: a list of UTF-16 code units, one `Char` each. -/
abbrev JSStr := List Char

/-- Embed a Lean string literal as a `JSStr`. -/
def js (s : String) : JSStr := s.data

/-- Whitespace removed by `String.prototype.trim` (ECMAScript WhiteSpace and
LineTerminator code points). -/
def jsWhite (c : Char) : Bool :=
  c.toNat ∈ [9, 10, 11, 12, 13, 32, 0xA0, 0x1680, 0x2000, 0x2001, 0x2002,
    0x2003, 0x2004, 0x2005, 0x2006, 0x2007, 0x2008, 0x2009, 0x200A, 0x2028,
    0x2029, 0x202F, 0x205F, 0x3000, 0xFEFF]

/-- `String.prototype.trim`. -/
def jsTrim (s : JSStr) : JSStr :=
  ((s.dropWhile jsWhite).reverse.dropWhile jsWhite).reverse

/-- `s.startsWith(c)` for a one-character argument. -/
def headIs (s : JSStr) (c : Char) : Bool :=
  match s with
  | [] => false
  | x :: _ => x = c

/-- `s.endsWith(c)` for a one-character argument. -/
def lastIs (s : JSStr) (c : Char) : Bool :=
  match s.getLast? with
  | none => false
  | some x => x = c

/-- Characters counted as printable by the codecs' meaningful-text heuristics:
printable ASCII 0x20-0x7E plus tab, newline and carriage return. -/
def isPrintableCode (c : Char) : Bool :=
  (32 ≤ c.toNat ∧ c.toNat ≤ 126) ∨ c.toNat = 10 ∨ c.toNat = 13 ∨ c.toNat = 9

/-- Number of printable characters of a string. -/
def printableCount (s : JSStr) : Nat := s.countP isPrintableCode

/-! ### `atob` (WHATWG forgiving-base64 decode) -/

/-- Membership in the base64 alphabet. -/
def isB64Char (c : Char) : Bool :=
  (65 ≤ c.toNat ∧ c.toNat ≤ 90) ∨ (97 ≤ c.toNat ∧ c.toNat ≤ 122) ∨
    (48 ≤ c.toNat ∧ c.toNat ≤ 57) ∨ c = '+' ∨ c = '/'

/-- Value of a base64 digit. -/
def b64DigitVal (c : Char) : Nat :=
  if 65 ≤ c.toNat ∧ c.toNat ≤ 90 then c.toNat - 65
  else if 97 ≤ c.toNat ∧ c.toNat ≤ 122 then c.toNat - 97 + 26
  else if 48 ≤ c.toNat ∧ c.toNat ≤ 57 then c.toNat - 48 + 52
  else if c = '+' then 62
  else 63

/-- ASCII whitespace stripped by forgiving-base64. -/
def asciiWhite (c : Char) : Bool := c.toNat ∈ [9, 10, 12, 13, 32]

/-- Regroup 6-bit values into bytes; a final group of two or three digits
contributes one or two bytes, surplus low bits are discarded. -/
def b64Bytes : List Nat → List Nat
  | a :: b :: c :: d :: rest =>
      (a * 4 + b / 16) :: (b % 16 * 16 + c / 4) :: (c % 4 * 64 + d) ::
        b64Bytes rest
  | [a, b] => [a * 4 + b / 16]
  | [a, b, c] => [a * 4 + b / 16, b % 16 * 16 + c / 4]
  | _ => []

/-- `atob`: forgiving-base64 decode to a byte string (each byte one `Char`);
`none` models a thrown `InvalidCharacterError`. -/
def atob (s : JSStr) : Option JSStr :=
  let t := s.filter (fun c => ¬ asciiWhite c)
  let t :=
    if t.length % 4 = 0 then
      match t.reverse with
      | '=' :: '=' :: r => r.reverse
      | '=' :: r => r.reverse
      | _ => t
    else t
  if t.length % 4 = 1 then none
  else if ¬ t.all isB64Char then none
  else some ((b64Bytes (t.map b64DigitVal)).map Char.ofNat)

/-! ### `decodeURIComponent` (ECMAScript Decode) -/

/-- Value of a hexadecimal digit. -/
def hexVal (c : Char) : Option Nat :=
  if 48 ≤ c.toNat ∧ c.toNat ≤ 57 then some (c.toNat - 48)
  else if 65 ≤ c.toNat ∧ c.toNat ≤ 70 then some (c.toNat - 65 + 10)
  else if 97 ≤ c.toNat ∧ c.toNat ≤ 102 then some (c.toNat - 97 + 10)
  else none

/-- Read one `%XX` escape (the `%` already consumed): the byte and the rest. -/
def readHexByte : JSStr → Option (Nat × JSStr)
  | h :: l :: rest =>
      match hexVal h, hexVal l with
      | some hv, some lv => some (hv * 16 + lv, rest)
      | _, _ => none
  | _ => none

/-- Read `n` continuation bytes, each written as `%XX` with `0x80 ≤ XX < 0xC0`. -/
def readContBytes : Nat → JSStr → Option (List Nat × JSStr)
  | 0, s => some ([], s)
  | n + 1, '%' :: s =>
      match readHexByte s with
      | some (b, rest) =>
          if 0x80 ≤ b ∧ b < 0xC0 then
            match readContBytes n rest with
            | some (bs, rest2) => some (b :: bs, rest2)
            | none => none
          else none
      | none => none
  | _ + 1, _ => none

/-- Number of leading one bits of a byte. -/
def leadingOnes (b : Nat) : Nat :=
  if b < 0x80 then 0
  else if b < 0xC0 then 1
  else if b < 0xE0 then 2
  else if b < 0xF0 then 3
  else if b < 0xF8 then 4
  else 5

/-- Combine a UTF-8 lead byte and its continuation bytes into a code point. -/
def utf8Combine (lead : Nat) (n : Nat) (conts : List Nat) : Nat :=
  conts.foldl (fun acc b => acc * 64 + (b - 0x80)) (lead - (256 - 2 ^ (8 - n)))

/-- Smallest code point of an `n`-byte UTF-8 sequence (overlong rejection). -/
def utf8Min (n : Nat) : Nat :=
  if n = 2 then 0x80 else if n = 3 then 0x800 else 0x10000

/-- A decoded code point is acceptable: in range, not a surrogate, not
overlong for its sequence length. -/
def validCodePoint (v n : Nat) : Bool :=
  utf8Min n ≤ v ∧ v ≤ 0x10FFFF ∧ ¬ (0xD800 ≤ v ∧ v ≤ 0xDFFF)

/-- Fuel-driven core of `decodeURIComponent`. -/
def pctDecodeAux : Nat → JSStr → Option JSStr
  | 0, _ => none
  | _ + 1, [] => some []
  | fuel + 1, c :: rest =>
      if c = '%' then
        match readHexByte rest with
        | none => none
        | some (b, rest2) =>
            if b < 0x80 then
              match pctDecodeAux fuel rest2 with
              | some d => some (Char.ofNat b :: d)
              | none => none
            else
              let n := leadingOnes b
              if 2 ≤ n ∧ n ≤ 4 then
                match readContBytes (n - 1) rest2 with
                | some (bs, rest3) =>
                    let v := utf8Combine b n bs
                    if validCodePoint v n then
                      match pctDecodeAux fuel rest3 with
                      | some d => some (Char.ofNat v :: d)
                      | none => none
                    else none
                | none => none
              else none
      else
        match pctDecodeAux fuel rest with
        | some d => some (c :: d)
        | none => none

/-- `decodeURIComponent`; `none` models a thrown `URIError`. -/
def pctDecode (s : JSStr) : Option JSStr := pctDecodeAux (s.length + 1) s

/-! ### `JSON.parse` and `JSON.stringify(-, null, 2)` -/

/-- Whitespace of the JSON grammar (tab, line feed, carriage return, space). -/
def jsonWhite (c : Char) : Bool := c.toNat ∈ [9, 10, 13, 32]

/-- Skip JSON whitespace. -/
def skipJsonWs (s : JSStr) : JSStr := s.dropWhile jsonWhite

/-- ASCII decimal digit. -/
def isDigitChar (c : Char) : Bool := 48 ≤ c.toNat ∧ c.toNat ≤ 57

/-- Integer part of a JSON number: `0`, or a nonzero digit followed by
digits. Returns the lexeme and the rest. -/
def parseIntPart : JSStr → Option (JSStr × JSStr)
  | [] => none
  | c :: rest =>
      if c = '0' then some ([c], rest)
      else if 49 ≤ c.toNat ∧ c.toNat ≤ 57 then
        some (c :: rest.takeWhile isDigitChar, rest.dropWhile isDigitChar)
      else none

/-- Optional fraction part `.digits` of a JSON number. -/
def parseFracPart : JSStr → Option (JSStr × JSStr)
  | '.' :: rest =>
      match rest.takeWhile isDigitChar with
      | [] => none
      | ds => some ('.' :: ds, rest.dropWhile isDigitChar)
  | s => some ([], s)

/-- Optional exponent part `(e|E)(+|-)?digits` of a JSON number. -/
def parseExpPart : JSStr → Option (JSStr × JSStr)
  | [] => some ([], [])
  | c :: rest =>
      if c = 'e' ∨ c = 'E' then
        let sgn : JSStr × JSStr :=
          match rest with
          | '+' :: r => (['+'], r)
          | '-' :: r => (['-'], r)
          | r => ([], r)
        match sgn.2.takeWhile isDigitChar with
        | [] => none
        | ds => some (c :: sgn.1 ++ ds, sgn.2.dropWhile isDigitChar)
      else some ([], c :: rest)

/-- A complete JSON number; returns its lexeme and the rest. -/
def parseNumber (s : JSStr) : Option (JSStr × JSStr) :=
  let sgn : JSStr × JSStr :=
    match s with
    | '-' :: r => (['-'], r)
    | _ => ([], s)
  match parseIntPart sgn.2 with
  | none => none
  | some (ip, r1) =>
      match parseFracPart r1 with
      | none => none
      | some (fp, r2) =>
          match parseExpPart r2 with
          | none => none
          | some (ep, r3) => some (sgn.1 ++ ip ++ fp ++ ep, r3)

/-- Parsed JSON value.  `num` and `str` keep the source lexeme (for strings:
the text between the quotes, escapes unexpanded); see the header note. -/
inductive JVal where
  | null
  | bool (b : Bool)
  | num (lex : JSStr)
  | str (lex : JSStr)
  | arr (items : List JVal)
  | obj (members : List (JSStr × JVal))

mutual

/-- Parse one JSON value (fuel-driven recursive descent). -/
def parseVal : Nat → JSStr → Option (JVal × JSStr)
  | 0, _ => none
  | fuel + 1, s =>
      match skipJsonWs s with
      | [] => none
      | c :: rest =>
          if c = '\x7b' then
            match parseMembers fuel rest with
            | some (ms, r) => some (.obj ms, r)
            | none => none
          else if c = '[' then
            match parseItems fuel rest with
            | some (xs, r) => some (.arr xs, r)
            | none => none
          else if c = '"' then
            match parseStrBody fuel rest with
            | some (lex, r) => some (.str lex, r)
            | none => none
          else if c = 't' then
            match rest with
            | 'r' :: 'u' :: 'e' :: r => some (.bool true, r)
            | _ => none
          else if c = 'f' then
            match rest with
            | 'a' :: 'l' :: 's' :: 'e' :: r => some (.bool false, r)
            | _ => none
          else if c = 'n' then
            match rest with
            | 'u' :: 'l' :: 'l' :: r => some (.null, r)
            | _ => none
          else if c = '-' ∨ isDigitChar c then
            match parseNumber (c :: rest) with
            | some (lex, r) => some (.num lex, r)
            | none => none
          else none

/-- Parse the body of a JSON string after the opening quote: the unexpanded
lexeme and the rest after the closing quote. -/
def parseStrBody : Nat → JSStr → Option (JSStr × JSStr)
  | 0, _ => none
  | _ + 1, [] => none
  | fuel + 1, c :: rest =>
      if c = '"' then some ([], rest)
      else if c = '\\' then
        match rest with
        | [] => none
        | e :: rest2 =>
            if e = '"' ∨ e = '\\' ∨ e = '/' ∨ e = 'b' ∨ e = 'f' ∨ e = 'n' ∨
                e = 'r' ∨ e = 't' then
              match parseStrBody fuel rest2 with
              | some (lex, r) => some (c :: e :: lex, r)
              | none => none
            else if e = 'u' then
              match rest2 with
              | h1 :: h2 :: h3 :: h4 :: rest3 =>
                  if (hexVal h1).isSome ∧ (hexVal h2).isSome ∧
                      (hexVal h3).isSome ∧ (hexVal h4).isSome then
                    match parseStrBody fuel rest3 with
                    | some (lex, r) =>
                        some (c :: e :: h1 :: h2 :: h3 :: h4 :: lex, r)
                    | none => none
                  else none
              | _ => none
            else none
      else if c.toNat < 32 then none
      else
        match parseStrBody fuel rest with
        | some (lex, r) => some (c :: lex, r)
        | none => none

/-- Parse the items of an array after the opening bracket (possibly none). -/
def parseItems : Nat → JSStr → Option (List JVal × JSStr)
  | 0, _ => none
  | fuel + 1, s =>
      match skipJsonWs s with
      | ']' :: r => some ([], r)
      | s' => parseElems fuel s'

/-- Parse one or more comma-separated array elements and the closing
bracket. -/
def parseElems : Nat → JSStr → Option (List JVal × JSStr)
  | 0, _ => none
  | fuel + 1, s =>
      match parseVal fuel s with
      | none => none
      | some (v, r) =>
          match skipJsonWs r with
          | ',' :: r2 =>
              match parseElems fuel r2 with
              | some (vs, r3) => some (v :: vs, r3)
              | none => none
          | ']' :: r2 => some ([v], r2)
          | _ => none

/-- Parse the members of an object after the opening brace (possibly none). -/
def parseMembers : Nat → JSStr → Option (List (JSStr × JVal) × JSStr)
  | 0, _ => none
  | fuel + 1, s =>
      match skipJsonWs s with
      | '\x7d' :: r => some ([], r)
      | s' => parsePairs fuel s'

/-- Parse one or more comma-separated `"key": value` members and the closing
brace. -/
def parsePairs : Nat → JSStr → Option (List (JSStr × JVal) × JSStr)
  | 0, _ => none
  | fuel + 1, s =>
      match skipJsonWs s with
      | '"' :: r =>
          match parseStrBody fuel r with
          | none => none
          | some (key, r2) =>
              match skipJsonWs r2 with
              | ':' :: r3 =>
                  match parseVal fuel r3 with
                  | none => none
                  | some (v, r4) =>
                      match skipJsonWs r4 with
                      | ',' :: r5 =>
                          match parsePairs fuel r5 with
                          | some (ms, r6) => some ((key, v) :: ms, r6)
                          | none => none
                      | '\x7d' :: r5 => some ([(key, v)], r5)
                      | _ => none
              | _ => none
      | _ => none

end

/-- Fuel that is ample for any input of the parser (at most three recursive
steps are taken per consumed character). -/
def jsonFuel (s : JSStr) : Nat := 4 * s.length + 4

/-- `JSON.parse`; `none` models a thrown `SyntaxError`. -/
def jsonParse (s : JSStr) : Option JVal :=
  match parseVal (jsonFuel s) s with
  | some (v, r) => if skipJsonWs r = [] then some v else none
  | none => none

/-- Does `JSON.parse` accept the string? -/
def jsonParses (s : JSStr) : Bool := (jsonParse s).isSome

/-- Indentation produced by `JSON.stringify(-, null, 2)` at nesting level
`lvl`. -/
def pad (lvl : Nat) : JSStr := List.replicate (2 * lvl) ' '

mutual

/-- Serialize a JSON value with two-space indentation (the body of
`JSON.stringify(v, null, 2)` restricted to parsed values). -/
def serVal (lvl : Nat) : JVal → JSStr
  | .null => js "null"
  | .bool true => js "true"
  | .bool false => js "false"
  | .num lex => lex
  | .str lex => '"' :: (lex ++ ['"'])
  | .arr items =>
      if items.isEmpty then js "[]"
      else '[' :: '\n' :: serItems (lvl + 1) items ++ '\n' :: pad lvl ++ [']']
  | .obj ms =>
      if ms.isEmpty then ['\x7b', '\x7d']
      else '\x7b' :: '\n' :: serMembers (lvl + 1) ms ++ '\n' :: pad lvl ++ ['\x7d']

/-- Serialize array items, one per line. -/
def serItems (lvl : Nat) : List JVal → JSStr
  | [] => []
  | [v] => pad lvl ++ serVal lvl v
  | v :: rest => pad lvl ++ serVal lvl v ++ ',' :: '\n' :: serItems lvl rest

/-- Serialize object members, one per line. -/
def serMembers (lvl : Nat) : List (JSStr × JVal) → JSStr
  | [] => []
  | [(k, v)] => pad lvl ++ '"' :: (k ++ ['"', ':', ' ']) ++ serVal lvl v
  | (k, v) :: rest =>
      pad lvl ++ '"' :: (k ++ ['"', ':', ' ']) ++ serVal lvl v ++
        ',' :: '\n' :: serMembers lvl rest

end

/-- `JSON.stringify(JSON.parse(s), null, 2)`, the pretty-printing step shared
by all codecs; `none` models a `JSON.parse` failure. -/
def jsonPretty (s : JSStr) : Option JSStr :=
  match jsonParse s with
  | some v => some (serVal 0 v)
  | none => none

/-! ### The LZString library boundary -/

/-- The four decompression entry points of the bundled LZString library.  The
library itself is not part of the extracted sources, so the development is
parametric in it; `none` models a thrown exception or a `null` return. -/
structure LZ where
  decompressFromUTF16 : JSStr → Option JSStr
  decompressFromBase64 : JSStr → Option JSStr
  decompressFromEncodedURIComponent : JSStr → Option JSStr
  decompress : JSStr → Option JSStr

/-- Tags for the four decompression variants, in the codec's order. -/
inductive LZFormat where
  | UTF16
  | Base64
  | URI
  | Generic
deriving DecidableEq

/-- Dispatch a variant tag to the library function it names. -/
def lzApply (lz : LZ) : LZFormat → JSStr → Option JSStr
  | .UTF16 => lz.decompressFromUTF16
  | .Base64 => lz.decompressFromBase64
  | .URI => lz.decompressFromEncodedURIComponent
  | .Generic => lz.decompress

/-- The `methods` array tried by both `LZStringCodec.decode` and the worker's
`decodeLZString`. -/
def lzMethods : List LZFormat := [.UTF16, .Base64, .URI, .Generic]

/-- `LZ` instantiation on which every decompression variant fails; used to
evaluate closed statements whose truth does not depend on real decompression
output (the real library is absent from the extracted sources). -/
def lzUnavailable : LZ :=
  ⟨fun _ => none, fun _ => none, fun _ => none, fun _ => none⟩

/-! ### The codec classes -/

namespace JsonCodec

/-- `JsonCodec.canDecode`. -/
def canDecode (val : JSStr) : Nat :=
  let v := jsTrim val
  if (¬ headIs v '\x7b' ∧ ¬ headIs v '[') ∨ (¬ lastIs v '\x7d' ∧ ¬ lastIs v ']')
  then 0
  else if jsonParses v then 100
  else 0

/-- `JsonCodec.decode`: pretty-print, or return the input on parse failure. -/
def decode (val : JSStr) : JSStr :=
  match jsonPretty val with
  | some p => p
  | none => val

end JsonCodec

namespace LZStringCodec

/-- The UTF-16 LZString signature character U+1BE1. -/
def sigChar : Char := 'ᯡ'

/-- `LZStringCodec.isMeaningfulText`: at least two characters and strictly
more than 95 percent printable. -/
def isMeaningfulText (str : JSStr) : Bool :=
  if str.length < 2 then false
  else decide (19 * str.length < 20 * printableCount str)

/-- The filtered `results` array of `canDecode`: each variant's output, kept
when truthy, different from the input and non-empty. -/
def results (lz : LZ) (val : JSStr) : List (LZFormat × JSStr) :=
  ([(LZFormat.UTF16, lz.decompressFromUTF16 val),
    (LZFormat.Base64, lz.decompressFromBase64 val),
    (LZFormat.URI, lz.decompressFromEncodedURIComponent val),
    (LZFormat.Generic, lz.decompress val)]).filterMap fun fd =>
      match fd.2 with
      | some d => if d ≠ [] ∧ d ≠ val ∧ 0 < d.length then some (fd.1, d) else none
      | none => none

/-- The loop over `results`: valid JSON scores 100; for inputs of at least 20
characters an expansion-ratio test together with the meaningful-text test
scores 85; otherwise the next result is tried. -/
def scan (val : JSStr) : List (LZFormat × JSStr) → Nat
  | [] => 0
  | (fmt, d) :: rest =>
      if jsonParses d then 100
      else if val.length < 20 then scan val rest
      else
        let isUTF16Like := fmt = LZFormat.UTF16 ∨ fmt = LZFormat.Generic
        if (11 * val.length < 10 * d.length ∨
            (isUTF16Like ∧ val.length < 2 * d.length)) ∧ isMeaningfulText d
        then 85
        else scan val rest

/-- `LZStringCodec.canDecode`. -/
def canDecode (lz : LZ) (val : JSStr) : Nat :=
  if val.length < 4 then 0
  else if headIs val sigChar then 95
  else
    let rs := results lz val
    if rs.length = 0 then 0
    else scan val rs

/-- The loop of `LZStringCodec.decode` over the `methods` array. -/
def decodeGo (lz : LZ) (val : JSStr) : List LZFormat → JSStr
  | [] => val
  | m :: rest =>
      match lzApply lz m val with
      | none => decodeGo lz val rest
      | some d =>
          if d ≠ [] ∧ d ≠ val then
            match jsonPretty d with
            | some p => p
            | none => if isMeaningfulText d then d else decodeGo lz val rest
          else decodeGo lz val rest

/-- `LZStringCodec.decode`. -/
def decode (lz : LZ) (val : JSStr) : JSStr := decodeGo lz val lzMethods

end LZStringCodec

/-- The `/^[A-Za-z0-9+/]*={0,2}$/` test of `Base64Codec.canDecode`: a maximal
prefix of alphabet characters followed by nothing, `=` or `==`. -/
def b64Regex (val : JSStr) : Bool :=
  match val.dropWhile isB64Char with
  | [] => true
  | ['='] => true
  | ['=', '='] => true
  | _ => false

namespace Base64Codec

/-- `Base64Codec.isMeaningfulText`: non-empty and strictly more than 90
percent printable. -/
def isMeaningfulText (str : JSStr) : Bool :=
  if str.length = 0 then false
  else decide (9 * str.length < 10 * printableCount str)

/-- `Base64Codec.canDecode`. -/
def canDecode (val : JSStr) : Nat :=
  if val.length < 4 then 0
  else if ¬ b64Regex val then 0
  else
    match atob val with
    | none => 0
    | some decoded =>
        if jsonParses decoded then 100
        else if isMeaningfulText decoded then 80
        else 0

/-- `Base64Codec.decode`. -/
def decode (val : JSStr) : JSStr :=
  match atob val with
  | none => val
  | some decoded =>
      match jsonPretty decoded with
      | some p => p
      | none => decoded

end Base64Codec

namespace UrlCodec

/-- `UrlCodec.isMeaningfulText`: non-empty and strictly more than 90 percent
printable. -/
def isMeaningfulText (str : JSStr) : Bool :=
  if str.length = 0 then false
  else decide (9 * str.length < 10 * printableCount str)

/-- `UrlCodec.canDecode`. -/
def canDecode (val : JSStr) : Nat :=
  if val.length = 0 then 0
  else if ¬ val.contains '%' then 0
  else
    let trimmed := jsTrim val
    if headIs trimmed '\x7b' ∨ headIs trimmed '[' then 0
    else
      match pctDecode val with
      | none => 0
      | some decoded =>
          if decoded = val then 0
          else if jsonParses decoded then 100
          else if isMeaningfulText decoded then 70
          else 0

/-- `UrlCodec.decode`. -/
def decode (val : JSStr) : JSStr :=
  match pctDecode val with
  | none => val
  | some decoded =>
      match jsonPretty decoded with
      | some p => p
      | none => decoded

end UrlCodec

/-! ### Registry and manager -/

/-- The codec classes, `raw` being the never-registered base class. -/
inductive CodecId where
  | raw
  | json
  | lzstring
  | base64
  | url
deriving DecidableEq, BEq

/-- The `name` getter of each codec class. -/
def codecNameStr : CodecId → JSStr
  | .raw => js "raw"
  | .json => js "json"
  | .lzstring => js "lzstring"
  | .base64 => js "base64"
  | .url => js "url"

/-- `canDecode` dispatch; the base class always answers 0. -/
def canDecodeOf (c : CodecId) (lz : LZ) (val : JSStr) : Nat :=
  match c with
  | .raw => 0
  | .json => JsonCodec.canDecode val
  | .lzstring => LZStringCodec.canDecode lz val
  | .base64 => Base64Codec.canDecode val
  | .url => UrlCodec.canDecode val

/-- `decode` dispatch; the base class returns its input. -/
def decodeOf (c : CodecId) (lz : LZ) (val : JSStr) : JSStr :=
  match c with
  | .raw => val
  | .json => JsonCodec.decode val
  | .lzstring => LZStringCodec.decode lz val
  | .base64 => Base64Codec.decode val
  | .url => UrlCodec.decode val

namespace CodecManager

/-- The `this.codecs` list built by the constructor, in registration order. -/
def codecs : List CodecId := [.json, .lzstring, .base64, .url]

/-- Registration index of a codec (4 for the unregistered base class). -/
def regIndex (c : CodecId) : Nat := codecs.indexOf c

/-- First pass of `detect`: the first codec scoring at least 90. -/
def firstPass (lz : LZ) (v : JSStr) : List CodecId → Option CodecId
  | [] => none
  | c :: rest =>
      if 90 ≤ canDecodeOf c lz v then some c else firstPass lz v rest

/-- Second pass of `detect`: track the maximum score and the codec that first
achieved it. -/
def secondPass (lz : LZ) (v : JSStr) :
    List CodecId → Option CodecId → Nat → Option CodecId × Nat
  | [], best, maxScore => (best, maxScore)
  | c :: rest, best, maxScore =>
      let score := canDecodeOf c lz v
      if maxScore < score then secondPass lz v rest (some c) score
      else secondPass lz v rest best maxScore

/-- `CodecManager.detect`.  A `null` argument is `none`; the `typeof` guard is
enforced by the type, and the `!val` guard on the empty string is subsumed by
the length guard. -/
def detect (lz : LZ) (val : Option JSStr) : Option CodecId :=
  match val with
  | none => none
  | some v =>
      if v.length < 2 then none
      else
        match firstPass lz v codecs with
        | some c => some c
        | none =>
            let r := secondPass lz v codecs none 0
            if 50 ≤ r.2 then r.1 else none

end CodecManager

/-! ### The codec worker -/

namespace CodecWorker

/-- The worker's copy of `isMeaningfulText` (the 95 percent variant). -/
def isMeaningfulText (str : JSStr) : Bool :=
  if str.length < 2 then false
  else decide (19 * str.length < 20 * printableCount str)

/-- The loop of the worker's `decodeLZString` over the `methods` array. -/
def decodeLZStringGo (lz : LZ) (val : JSStr) : List LZFormat → JSStr
  | [] => val
  | m :: rest =>
      match lzApply lz m val with
      | none => decodeLZStringGo lz val rest
      | some d =>
          if d ≠ [] ∧ d ≠ val then
            match jsonPretty d with
            | some p => p
            | none => if isMeaningfulText d then d else decodeLZStringGo lz val rest
          else decodeLZStringGo lz val rest

/-- The worker's `decodeLZString`. -/
def decodeLZString (lz : LZ) (val : JSStr) : JSStr :=
  decodeLZStringGo lz val lzMethods

/-- A reply posted by the worker.  The error message text is
platform-defined and not modelled. -/
inductive Reply where
  | ok (result : JSStr)
  | err
deriving DecidableEq

/-- The `e.data` envelope received by the worker. -/
structure Msg where
  type : JSStr
  payload : JSStr
  codecName : JSStr

/-- The worker's `onmessage` handler; `none` means no reply is posted (the
`ENCODE` branch is empty in the source). -/
def onmessage (lz : LZ) (m : Msg) : Option Reply :=
  if m.type = js "DECODE" then
    some (
      if m.codecName = js "lzstring" then Reply.ok (decodeLZString lz m.payload)
      else if m.codecName = js "base64" then
        match atob m.payload with
        | none => Reply.err
        | some r =>
            match jsonPretty r with
            | some p => Reply.ok p
            | none => Reply.ok r
      else if m.codecName = js "url" then
        match pctDecode m.payload with
        | none => Reply.err
        | some r =>
            match jsonPretty r with
            | some p => Reply.ok p
            | none => Reply.ok r
      else if m.codecName = js "json" then
        match jsonPretty m.payload with
        | some p => Reply.ok p
        | none => Reply.ok m.payload
      else Reply.ok m.payload)
  else none

end CodecWorker

/-! ### Specification-side restatements (from the claims' wording) -/

/-- Restatement of the claimed two-pass detection algorithm: guard, then the
first codec scoring at least 90, then the first codec holding the maximum
score provided that maximum is at least 50. -/
def detectSpec (lz : LZ) (val : Option JSStr) : Option CodecId :=
  match val with
  | none => none
  | some v =>
      if v.length < 2 then none
      else
        match CodecManager.codecs.find? (fun c => 90 ≤ canDecodeOf c lz v) with
        | some c => some c
        | none =>
            let m := (CodecManager.codecs.map (fun c => canDecodeOf c lz v)).foldl max 0
            if 50 ≤ m then
              CodecManager.codecs.find? (fun c => canDecodeOf c lz v = m)
            else none

/-- One split of a string into alphabet characters followed by `n` trailing
`=` signs. -/
def b64SplitOK (v : JSStr) (n : Nat) : Bool :=
  decide (n ≤ v.length) && (v.take (v.length - n)).all isB64Char &&
    decide (v.drop (v.length - n) = List.replicate n '=')

/-- Restatement of the claimed base64 shape: letters, digits, `+`, `/`, with
up to two trailing `=`. -/
def b64AlphabetSpec (v : JSStr) : Bool :=
  b64SplitOK v 0 || b64SplitOK v 1 || b64SplitOK v 2

/-- Restatement of the claimed meaningful-text test: non-empty, and the
fraction of printable characters strictly exceeds 90 percent. -/
def meaningfulTextSpec (d : JSStr) : Bool :=
  decide (d ≠ [] ∧ (9 : ℚ) / 10 < (printableCount d : ℚ) / (d.length : ℚ))

/-- Restatement of the claimed `Base64Codec.canDecode` behaviour. -/
def b64CanDecodeSpec (val : JSStr) : Nat :=
  if val.length < 4 ∨ b64AlphabetSpec val = false then 0
  else
    match atob val with
    | none => 0
    | some d =>
        if jsonParses d then 100
        else if meaningfulTextSpec d then 80
        else 0

/-! ### Score-range lemmas -/

theorem jsonCanDecode_cases (val : JSStr) :
    JsonCodec.canDecode val = 0 ∨ JsonCodec.canDecode val = 100 := by
  simp only [JsonCodec.canDecode]
  split
  · exact Or.inl rfl
  · split
    · exact Or.inr rfl
    · exact Or.inl rfl

theorem lzScan_cases (val : JSStr) : ∀ rs,
    LZStringCodec.scan val rs = 0 ∨ LZStringCodec.scan val rs = 85 ∨
      LZStringCodec.scan val rs = 100
  | [] => Or.inl rfl
  | (fmt, d) :: rest => by
      simp only [LZStringCodec.scan]
      split
      · simp
      · split
        · exact lzScan_cases val rest
        · split
          · simp
          · exact lzScan_cases val rest

theorem lzCanDecode_cases (lz : LZ) (val : JSStr) :
    LZStringCodec.canDecode lz val = 0 ∨ LZStringCodec.canDecode lz val = 85 ∨
      LZStringCodec.canDecode lz val = 95 ∨
      LZStringCodec.canDecode lz val = 100 := by
  simp only [LZStringCodec.canDecode]
  split
  · exact Or.inl rfl
  · split
    · simp
    · split
      · exact Or.inl rfl
      · rcases lzScan_cases val (LZStringCodec.results lz val) with h | h | h <;>
          simp [h]

theorem b64CanDecode_cases (val : JSStr) :
    Base64Codec.canDecode val = 0 ∨ Base64Codec.canDecode val = 80 ∨
      Base64Codec.canDecode val = 100 := by
  simp only [Base64Codec.canDecode]
  split
  · exact Or.inl rfl
  · split
    · exact Or.inl rfl
    · split
      · exact Or.inl rfl
      · split
        · simp
        · split <;> simp

theorem urlCanDecode_cases (val : JSStr) :
    UrlCodec.canDecode val = 0 ∨ UrlCodec.canDecode val = 70 ∨
      UrlCodec.canDecode val = 100 := by
  simp only [UrlCodec.canDecode]
  split
  · exact Or.inl rfl
  · split
    · exact Or.inl rfl
    · split
      · exact Or.inl rfl
      · split
        · exact Or.inl rfl
        · split
          · exact Or.inl rfl
          · split
            · simp
            · split <;> simp

theorem canDecodeOf_le_100 (c : CodecId) (lz : LZ) (val : JSStr) :
    canDecodeOf c lz val ≤ 100 := by
  cases c <;> simp only [canDecodeOf]
  · omega
  · rcases jsonCanDecode_cases val with h | h <;> omega
  · rcases lzCanDecode_cases lz val with h | h | h | h <;> omega
  · rcases b64CanDecode_cases val with h | h | h <;> omega
  · rcases urlCanDecode_cases val with h | h | h <;> omega

/-! ### Signature-character interaction lemmas -/

theorem lzCanDecode_95_headIs (lz : LZ) (val : JSStr)
    (h : LZStringCodec.canDecode lz val = 95) :
    headIs val LZStringCodec.sigChar = true := by
  by_contra hns
  rw [Bool.not_eq_true] at hns
  simp only [LZStringCodec.canDecode, hns] at h
  split at h
  · omega
  · simp only [Bool.false_eq_true, if_false] at h
    split at h
    · omega
    · rcases lzScan_cases val (LZStringCodec.results lz val) with h2 | h2 | h2 <;>
        omega

theorem parseVal_sigChar (f : Nat) (r : JSStr) :
    parseVal f (LZStringCodec.sigChar :: r) = none := by
  cases f with
  | zero => rfl
  | succ f =>
      have h1 : jsonWhite LZStringCodec.sigChar = false := by decide
      simp only [parseVal, skipJsonWs, List.dropWhile, h1]
      rw [if_neg (by decide), if_neg (by decide), if_neg (by decide),
        if_neg (by decide), if_neg (by decide), if_neg (by decide),
        if_neg (by decide)]

theorem jsonParses_sigChar (r : JSStr) :
    jsonParses (LZStringCodec.sigChar :: r) = false := by
  simp [jsonParses, jsonParse, parseVal_sigChar]

theorem b64Regex_cons_false (c : Char) (r : JSStr) (h1 : isB64Char c = false)
    (h2 : c ≠ '=') : b64Regex (c :: r) = false := by
  simp only [b64Regex, List.dropWhile, h1]
  split <;> simp_all

theorem b64CanDecode_sig (val : JSStr) (h : headIs val LZStringCodec.sigChar = true) :
    Base64Codec.canDecode val = 0 := by
  match val, h with
  | c :: r, h =>
      have hc : c = LZStringCodec.sigChar := by
        simpa [headIs] using h
      subst hc
      simp only [Base64Codec.canDecode]
      split
      · rfl
      · rw [b64Regex_cons_false _ _ (by decide) (by decide)]
        simp

theorem pctDecode_cons_head (c : Char) (r : JSStr) (hc : c ≠ '%') (d : JSStr)
    (h : pctDecode (c :: r) = some d) : ∃ d', d = c :: d' := by
  simp only [pctDecode, List.length_cons] at h
  rw [pctDecodeAux] at h
  simp only [hc, if_false] at h
  cases haux : pctDecodeAux (r.length + 1) r with
  | none => rw [haux] at h; simp at h
  | some d2 =>
      rw [haux] at h
      simp only [Option.some.injEq] at h
      exact ⟨d2, h.symm⟩

theorem urlCanDecode_sig (val : JSStr)
    (h : headIs val LZStringCodec.sigChar = true) :
    UrlCodec.canDecode val ≤ 70 := by
  match val, h with
  | c :: r, h =>
      have hc : c = LZStringCodec.sigChar := by
        simpa [headIs] using h
      subst hc
      simp only [UrlCodec.canDecode]
      split
      · omega
      · split
        · omega
        · split
          · omega
          · cases hd : pctDecode (LZStringCodec.sigChar :: r) with
            | none => simp
            | some decoded =>
                obtain ⟨d', hd'⟩ := pctDecode_cons_head _ _ (by decide) _ hd
                subst hd'
                simp only [jsonParses_sigChar, Bool.false_eq_true, if_false]
                split
                · omega
                · split <;> omega

/-! ### Maximum-tracking machinery for the second pass -/

theorem le_foldl_max (a : Nat) : ∀ l : List Nat, a ≤ l.foldl max a
  | [] => le_refl a
  | x :: l => le_trans (le_max_left a x) (le_foldl_max (max a x) l)

theorem mem_le_foldl_max (a : Nat) : ∀ l : List Nat, ∀ x ∈ l, x ≤ l.foldl max a
  | [], x, hx => absurd hx (List.not_mem_nil x)
  | y :: l, x, hx => by
      rcases List.mem_cons.mp hx with h | h
      · subst h
        exact le_trans (le_max_right a x) (le_foldl_max (max a x) l)
      · exact mem_le_foldl_max (max a y) l x h

theorem firstPass_eq_find? (lz : LZ) (v : JSStr) :
    ∀ cs : List CodecId, CodecManager.firstPass lz v cs =
      cs.find? fun c => decide (90 ≤ canDecodeOf c lz v)
  | [] => rfl
  | c :: rest => by
      simp only [CodecManager.firstPass]
      by_cases h : 90 ≤ canDecodeOf c lz v
      · rw [if_pos h]
        simp only [List.find?, decide_eq_true h]
      · rw [if_neg h]
        simp only [List.find?, decide_eq_false h]
        exact firstPass_eq_find? lz v rest

theorem secondPass_snd (lz : LZ) (v : JSStr) :
    ∀ (cs : List CodecId) (b : Option CodecId) (a : Nat),
      (CodecManager.secondPass lz v cs b a).2 =
        (cs.map fun c => canDecodeOf c lz v).foldl max a
  | [], _, _ => rfl
  | c :: rest, b, a => by
      simp only [CodecManager.secondPass, List.map_cons, List.foldl_cons]
      by_cases h : a < canDecodeOf c lz v
      · rw [if_pos h, secondPass_snd lz v rest (some c) (canDecodeOf c lz v),
          max_eq_right (le_of_lt h)]
      · rw [if_neg h, secondPass_snd lz v rest b a, max_eq_left (by omega)]

theorem secondPass_fst (lz : LZ) (v : JSStr) :
    ∀ (cs : List CodecId) (b : Option CodecId) (a : Nat),
      (CodecManager.secondPass lz v cs b a).1 =
        if a < (cs.map fun c => canDecodeOf c lz v).foldl max a then
          cs.find? fun c =>
            decide (canDecodeOf c lz v =
              (cs.map fun x => canDecodeOf x lz v).foldl max a)
        else b
  | [], b, a => by simp [CodecManager.secondPass]
  | c :: rest, b, a => by
      have hle : ∀ i : Nat, i ≤ (rest.map fun x => canDecodeOf x lz v).foldl max i :=
        fun i => le_foldl_max i _
      simp only [CodecManager.secondPass, List.map_cons, List.foldl_cons]
      by_cases h : a < canDecodeOf c lz v
      · rw [if_pos h, secondPass_fst lz v rest (some c) (canDecodeOf c lz v)]
        simp only [max_eq_right (le_of_lt h)]
        have ham : a < (rest.map fun x => canDecodeOf x lz v).foldl max
            (canDecodeOf c lz v) := lt_of_lt_of_le h (hle _)
        rw [if_pos ham]
        by_cases hsm : canDecodeOf c lz v =
            (rest.map fun x => canDecodeOf x lz v).foldl max (canDecodeOf c lz v)
        · rw [if_neg (show ¬ canDecodeOf c lz v <
              (rest.map fun x => canDecodeOf x lz v).foldl max
                (canDecodeOf c lz v) from by omega)]
          simp only [List.find?, decide_eq_true hsm]
        · have hlt : canDecodeOf c lz v <
              (rest.map fun x => canDecodeOf x lz v).foldl max
                (canDecodeOf c lz v) := lt_of_le_of_ne (hle _) hsm
          rw [if_pos hlt]
          simp only [List.find?, decide_eq_false hsm]
      · rw [if_neg h, secondPass_fst lz v rest b a]
        simp only [max_eq_left (le_of_not_lt h)]
        by_cases ham : a < (rest.map fun x => canDecodeOf x lz v).foldl max a
        · have hsm : ¬ canDecodeOf c lz v =
              (rest.map fun x => canDecodeOf x lz v).foldl max a := by omega
          rw [if_pos ham, if_pos ham]
          simp only [List.find?, decide_eq_false hsm]
        · rw [if_neg ham, if_neg ham]

theorem detect_eq_detectSpec (lz : LZ) (val : Option JSStr) :
    CodecManager.detect lz val = detectSpec lz val := by
  cases val with
  | none => rfl
  | some v =>
      simp only [CodecManager.detect, detectSpec]
      by_cases hlen : v.length < 2
      · rw [if_pos hlen, if_pos hlen]
      · rw [if_neg hlen, if_neg hlen, firstPass_eq_find? lz v]
        cases hf : CodecManager.codecs.find? fun c =>
            decide (90 ≤ canDecodeOf c lz v) with
        | some c => rfl
        | none =>
            simp only
            rw [secondPass_fst lz v CodecManager.codecs none 0,
              secondPass_snd lz v CodecManager.codecs none 0]
            by_cases hm : 50 ≤
                (CodecManager.codecs.map fun c => canDecodeOf c lz v).foldl max 0
            · rw [if_pos hm, if_pos hm, if_pos (by omega)]
            · rw [if_neg hm, if_neg hm]

/-- Claim C1: `CodecManager.detect` implements the two-pass detection
algorithm: a `null`, non-string or shorter-than-2 value yields no match;
otherwise the first codec in the order JSON, LZString, Base64, URL whose
`canDecode` is at least 90 is returned; failing that, the maximum score is
tracked over a second iteration and the codec holding it is returned when
that maximum is at least 50, else no match. -/
theorem claim_C1_detect_two_pass (lz : LZ) (val : Option JSStr) :
    CodecManager.detect lz val = detectSpec lz val :=
  detect_eq_detectSpec lz val

/-- Claim C2: whenever `detect` returns a codec, that codec holds the
highest `canDecode` score among the four registered codecs, and every codec
registered before it scores strictly lower (ties are broken by registration
order).  At most one codec is returned by construction of the result type. -/
theorem claim_C2_detect_returns_highest (lz : LZ) (val : JSStr) (c : CodecId)
    (h : CodecManager.detect lz (some val) = some c) :
    (∀ d ∈ CodecManager.codecs, canDecodeOf d lz val ≤ canDecodeOf c lz val) ∧
      (∀ d ∈ CodecManager.codecs,
        CodecManager.regIndex d < CodecManager.regIndex c →
          canDecodeOf d lz val < canDecodeOf c lz val) := by
  have Hj := jsonCanDecode_cases val
  have Hl := lzCanDecode_cases lz val
  have Hb := b64CanDecode_cases val
  have Hu := urlCanDecode_cases val
  have ej : canDecodeOf CodecId.json lz val = JsonCodec.canDecode val := rfl
  have el : canDecodeOf CodecId.lzstring lz val =
    LZStringCodec.canDecode lz val := rfl
  have eb : canDecodeOf CodecId.base64 lz val = Base64Codec.canDecode val := rfl
  have eu : canDecodeOf CodecId.url lz val = UrlCodec.canDecode val := rfl
  rw [detect_eq_detectSpec] at h
  simp only [detectSpec] at h
  split at h
  · simp at h
  · by_cases h1 : 90 ≤ canDecodeOf CodecId.json lz val
    · simp only [CodecManager.codecs, List.find?, decide_eq_true h1] at h
      rw [Option.some.injEq] at h
      subst h
      refine ⟨fun d hd => ?_, fun d hd hlt => ?_⟩ <;>
        simp only [CodecManager.codecs] at hd <;> fin_cases hd <;>
        first
          | exact absurd hlt (by decide)
          | (rcases Hj with Hj | Hj <;> rcases Hl with Hl | Hl | Hl | Hl <;>
              rcases Hb with Hb | Hb | Hb <;> rcases Hu with Hu | Hu | Hu <;>
              omega)
    · by_cases h2 : 90 ≤ canDecodeOf CodecId.lzstring lz val
      · simp only [CodecManager.codecs, List.find?, decide_eq_false h1,
          decide_eq_true h2] at h
        rw [Option.some.injEq] at h
        subst h
        rcases Hl with Hl | Hl | Hl | Hl
        · exfalso; omega
        · exfalso; omega
        · have hsig := lzCanDecode_95_headIs lz val Hl
          have hb0 := b64CanDecode_sig val hsig
          have hu70 := urlCanDecode_sig val hsig
          refine ⟨fun d hd => ?_, fun d hd hlt => ?_⟩ <;>
            simp only [CodecManager.codecs] at hd <;> fin_cases hd <;>
            first
              | exact absurd hlt (by decide)
              | (rcases Hj with Hj | Hj <;> rcases Hb with Hb | Hb | Hb <;>
                  rcases Hu with Hu | Hu | Hu <;> omega)
        · refine ⟨fun d hd => ?_, fun d hd hlt => ?_⟩ <;>
            simp only [CodecManager.codecs] at hd <;> fin_cases hd <;>
            first
              | exact absurd hlt (by decide)
              | (rcases Hj with Hj | Hj <;> rcases Hb with Hb | Hb | Hb <;>
                  rcases Hu with Hu | Hu | Hu <;> omega)
      · by_cases h3 : 90 ≤ canDecodeOf CodecId.base64 lz val
        · simp only [CodecManager.codecs, List.find?, decide_eq_false h1,
            decide_eq_false h2, decide_eq_true h3] at h
          rw [Option.some.injEq] at h
          subst h
          refine ⟨fun d hd => ?_, fun d hd hlt => ?_⟩ <;>
            simp only [CodecManager.codecs] at hd <;> fin_cases hd <;>
            first
              | exact absurd hlt (by decide)
              | (rcases Hj with Hj | Hj <;> rcases Hl with Hl | Hl | Hl | Hl <;>
                  rcases Hb with Hb | Hb | Hb <;> rcases Hu with Hu | Hu | Hu <;>
                  omega)
        · by_cases h4 : 90 ≤ canDecodeOf CodecId.url lz val
          · simp only [CodecManager.codecs, List.find?, decide_eq_false h1,
              decide_eq_false h2, decide_eq_false h3, decide_eq_true h4] at h
            rw [Option.some.injEq] at h
            subst h
            refine ⟨fun d hd => ?_, fun d hd hlt => ?_⟩ <;>
              simp only [CodecManager.codecs] at hd <;> fin_cases hd <;>
              first
                | exact absurd hlt (by decide)
                | (rcases Hj with Hj | Hj <;> rcases Hl with Hl | Hl | Hl | Hl <;>
                    rcases Hb with Hb | Hb | Hb <;> rcases Hu with Hu | Hu | Hu <;>
                    omega)
          · simp only [CodecManager.codecs, List.find?, decide_eq_false h1,
              decide_eq_false h2, decide_eq_false h3, decide_eq_false h4] at h
            split at h
            · set m := ([CodecId.json, CodecId.lzstring, CodecId.base64,
                CodecId.url].map fun x => canDecodeOf x lz val).foldl max 0 with hm
              have hlej : canDecodeOf CodecId.json lz val ≤ m := by
                rw [hm]; exact mem_le_foldl_max 0 _ _ (by simp)
              have hlel : canDecodeOf CodecId.lzstring lz val ≤ m := by
                rw [hm]; exact mem_le_foldl_max 0 _ _ (by simp)
              have hleb : canDecodeOf CodecId.base64 lz val ≤ m := by
                rw [hm]; exact mem_le_foldl_max 0 _ _ (by simp)
              have hleu : canDecodeOf CodecId.url lz val ≤ m := by
                rw [hm]; exact mem_le_foldl_max 0 _ _ (by simp)
              by_cases e1 : canDecodeOf CodecId.json lz val = m
              · simp only [List.find?, decide_eq_true e1] at h
                rw [Option.some.injEq] at h
                subst h
                refine ⟨fun d hd => ?_, fun d hd hlt => ?_⟩ <;>
                  simp only [CodecManager.codecs] at hd <;> fin_cases hd <;>
                  first
                    | exact absurd hlt (by decide)
                    | omega
              · by_cases e2 : canDecodeOf CodecId.lzstring lz val = m
                · simp only [List.find?, decide_eq_false e1, decide_eq_true e2] at h
                  rw [Option.some.injEq] at h
                  subst h
                  refine ⟨fun d hd => ?_, fun d hd hlt => ?_⟩ <;>
                    simp only [CodecManager.codecs] at hd <;> fin_cases hd <;>
                    first
                      | exact absurd hlt (by decide)
                      | omega
                · by_cases e3 : canDecodeOf CodecId.base64 lz val = m
                  · simp only [List.find?, decide_eq_false e1, decide_eq_false e2,
                      decide_eq_true e3] at h
                    rw [Option.some.injEq] at h
                    subst h
                    refine ⟨fun d hd => ?_, fun d hd hlt => ?_⟩ <;>
                      simp only [CodecManager.codecs] at hd <;> fin_cases hd <;>
                      first
                        | exact absurd hlt (by decide)
                        | omega
                  · by_cases e4 : canDecodeOf CodecId.url lz val = m
                    · simp only [List.find?, decide_eq_false e1, decide_eq_false e2,
                        decide_eq_false e3, decide_eq_true e4] at h
                      rw [Option.some.injEq] at h
                      subst h
                      refine ⟨fun d hd => ?_, fun d hd hlt => ?_⟩ <;>
                        simp only [CodecManager.codecs] at hd <;> fin_cases hd <;>
                        first
                          | exact absurd hlt (by decide)
                          | omega
                    · simp only [List.find?, decide_eq_false e1, decide_eq_false e2,
                        decide_eq_false e3, decide_eq_false e4] at h
                      exact Option.noConfusion h
            · simp at h

/-- Witness for C2 at the concrete input `"%41"`, detected as the URL codec:
the JSON codec, registered earlier, scores strictly lower. -/
theorem claim_C2_witness :
    canDecodeOf CodecId.json lzUnavailable (js "%41") <
      canDecodeOf CodecId.url lzUnavailable (js "%41") :=
  (claim_C2_detect_returns_highest lzUnavailable (js "%41") CodecId.url
    (by decide)).2 CodecId.json (by simp [CodecManager.codecs]) (by decide)

theorem detect_mem_score (lz : LZ) (v : JSStr) (c : CodecId)
    (h : CodecManager.detect lz (some v) = some c) :
    c ∈ CodecManager.codecs ∧ 50 ≤ canDecodeOf c lz v := by
  rw [detect_eq_detectSpec] at h
  simp only [detectSpec] at h
  split at h
  · exact absurd h (by simp)
  · split at h
    next c0 heq =>
      rw [Option.some.injEq] at h
      subst h
      have h90 := List.find?_some heq
      simp only [decide_eq_true_eq] at h90
      exact ⟨List.mem_of_find?_eq_some heq, by omega⟩
    next heq =>
      by_cases h50 : 50 ≤
          (CodecManager.codecs.map fun c => canDecodeOf c lz v).foldl max 0
      · rw [if_pos h50] at h
        have hp := List.find?_some h
        simp only [decide_eq_true_eq] at hp
        exact ⟨List.mem_of_find?_eq_some h, by omega⟩
      · rw [if_neg h50] at h
        exact absurd h (by simp)

/-- Claim C10: whenever `detect` returns a codec it is one of the four
registered codecs (`json`, `lzstring`, `base64`, `url`) and never the `raw`
base class; together with the result type (`Option`), `detect` returns either
no codec or exactly one registered codec. -/
theorem claim_C10_detect_never_raw (lz : LZ) (val : JSStr) (c : CodecId)
    (h : CodecManager.detect lz (some val) = some c) :
    c ≠ CodecId.raw ∧ (c = CodecId.json ∨ c = CodecId.lzstring ∨
      c = CodecId.base64 ∨ c = CodecId.url) := by
  obtain ⟨hmem, -⟩ := detect_mem_score lz val c h
  simp only [CodecManager.codecs] at hmem
  fin_cases hmem <;> exact ⟨by decide, by decide⟩

/-- Witness for C10 at the concrete input `"[1]"`, detected as JSON. -/
theorem claim_C10_witness :
    CodecId.json ≠ CodecId.raw ∧ (CodecId.json = CodecId.json ∨
      CodecId.json = CodecId.lzstring ∨ CodecId.json = CodecId.base64 ∨
      CodecId.json = CodecId.url) :=
  claim_C10_detect_never_raw lzUnavailable (js "[1]") CodecId.json (by decide)

/-! ### Worker-reply characterisation -/

theorem workerMeaningful_eq (s : JSStr) :
    CodecWorker.isMeaningfulText s = LZStringCodec.isMeaningfulText s := rfl

theorem workerGo_eq (lz : LZ) (val : JSStr) :
    ∀ ms : List LZFormat, CodecWorker.decodeLZStringGo lz val ms =
      LZStringCodec.decodeGo lz val ms
  | [] => rfl
  | m :: rest => by
      simp only [CodecWorker.decodeLZStringGo, LZStringCodec.decodeGo,
        workerMeaningful_eq, workerGo_eq lz val rest]

theorem workerDecodeLZ_eq (lz : LZ) (val : JSStr) :
    CodecWorker.decodeLZString lz val = LZStringCodec.decode lz val :=
  workerGo_eq lz val lzMethods

theorem worker_reply_json (lz : LZ) (p : JSStr) :
    CodecWorker.onmessage lz ⟨js "DECODE", p, js "json"⟩ =
      some (CodecWorker.Reply.ok (JsonCodec.decode p)) := by
  simp only [CodecWorker.onmessage]
  rw [if_pos trivial, if_neg (by decide), if_neg (by decide), if_neg (by decide),
    if_pos trivial]
  simp only [JsonCodec.decode]
  cases hp : jsonPretty p <;> simp

theorem worker_reply_lzstring (lz : LZ) (p : JSStr) :
    CodecWorker.onmessage lz ⟨js "DECODE", p, js "lzstring"⟩ =
      some (CodecWorker.Reply.ok (LZStringCodec.decode lz p)) := by
  simp only [CodecWorker.onmessage]
  rw [if_pos trivial, if_pos trivial, workerDecodeLZ_eq]

theorem worker_reply_base64 (lz : LZ) (p : JSStr) :
    CodecWorker.onmessage lz ⟨js "DECODE", p, js "base64"⟩ =
      some (if (atob p).isSome then CodecWorker.Reply.ok (Base64Codec.decode p)
        else CodecWorker.Reply.err) := by
  simp only [CodecWorker.onmessage]
  rw [if_pos trivial, if_neg (by decide), if_pos trivial]
  cases ha : atob p with
  | none => simp
  | some d =>
      simp only [Option.isSome_some, if_pos, Base64Codec.decode, ha]
      cases hp : jsonPretty d <;> simp

theorem worker_reply_url (lz : LZ) (p : JSStr) :
    CodecWorker.onmessage lz ⟨js "DECODE", p, js "url"⟩ =
      some (if (pctDecode p).isSome then CodecWorker.Reply.ok (UrlCodec.decode p)
        else CodecWorker.Reply.err) := by
  simp only [CodecWorker.onmessage]
  rw [if_pos trivial, if_neg (by decide), if_neg (by decide), if_pos trivial]
  cases ha : pctDecode p with
  | none => simp
  | some d =>
      simp only [Option.isSome_some, if_pos, UrlCodec.decode, ha]
      cases hp : jsonPretty d <;> simp

/-- Claim C8: for each registered codec name, a `DECODE` request to the
worker yields, in any success reply, exactly the result of that codec's
synchronous `decode`; an error reply occurs only when the synchronous
`decode` also fails internally and returns the payload unchanged. -/
theorem claim_C8_worker_matches_sync (lz : LZ) (payload : JSStr) (c : CodecId)
    (hc : c ∈ CodecManager.codecs) :
    (∀ r, CodecWorker.onmessage lz ⟨js "DECODE", payload, codecNameStr c⟩ =
        some (CodecWorker.Reply.ok r) → r = decodeOf c lz payload) ∧
      (CodecWorker.onmessage lz ⟨js "DECODE", payload, codecNameStr c⟩ =
          some CodecWorker.Reply.err → decodeOf c lz payload = payload) := by
  simp only [CodecManager.codecs] at hc
  fin_cases hc
  · refine ⟨fun r hr => ?_, fun he => ?_⟩
    · rw [codecNameStr, worker_reply_json] at hr
      simp only [Option.some.injEq, CodecWorker.Reply.ok.injEq] at hr
      exact hr.symm
    · rw [codecNameStr, worker_reply_json] at he
      simp at he
  · refine ⟨fun r hr => ?_, fun he => ?_⟩
    · rw [codecNameStr, worker_reply_lzstring] at hr
      simp only [Option.some.injEq, CodecWorker.Reply.ok.injEq] at hr
      exact hr.symm
    · rw [codecNameStr, worker_reply_lzstring] at he
      simp at he
  · refine ⟨fun r hr => ?_, fun he => ?_⟩
    · rw [codecNameStr, worker_reply_base64] at hr
      cases ha : atob payload with
      | none => rw [ha] at hr; simp at hr
      | some d =>
          rw [ha] at hr
          simp only [Option.isSome_some, if_pos, Option.some.injEq,
            CodecWorker.Reply.ok.injEq] at hr
          exact hr.symm
    · rw [codecNameStr, worker_reply_base64] at he
      cases ha : atob payload with
      | none => simp [decodeOf, Base64Codec.decode, ha]
      | some d => rw [ha] at he; simp at he
  · refine ⟨fun r hr => ?_, fun he => ?_⟩
    · rw [codecNameStr, worker_reply_url] at hr
      cases ha : pctDecode payload with
      | none => rw [ha] at hr; simp at hr
      | some d =>
          rw [ha] at hr
          simp only [Option.isSome_some, if_pos, Option.some.injEq,
            CodecWorker.Reply.ok.injEq] at hr
          exact hr.symm
    · rw [codecNameStr, worker_reply_url] at he
      cases ha : pctDecode payload with
      | none => simp [decodeOf, UrlCodec.decode, ha]
      | some d => rw [ha] at he; simp at he

/-- Witness for C8: decoding `"e30="` through the worker with the base64
codec produces exactly the synchronous `Base64Codec.decode` result. -/
theorem claim_C8_witness :
    CodecWorker.onmessage lzUnavailable
        ⟨js "DECODE", js "e30=", codecNameStr CodecId.base64⟩ =
      some (CodecWorker.Reply.ok (decodeOf CodecId.base64 lzUnavailable
        (js "e30="))) := by
  have h := (claim_C8_worker_matches_sync lzUnavailable (js "e30=")
    CodecId.base64 (by simp [CodecManager.codecs])).1
    (js "\x7b\x7d") (by decide)
  rw [← h]
  decide

/-- Claim C9: a `DECODE` request whose codec name is not one of the
registry's known names is answered with a success reply carrying the payload
unchanged, not with an error reply. -/
theorem claim_C9_unknown_name_passthrough (lz : LZ) (payload name : JSStr)
    (h1 : name ≠ js "lzstring") (h2 : name ≠ js "base64")
    (h3 : name ≠ js "url") (h4 : name ≠ js "json") :
    CodecWorker.onmessage lz ⟨js "DECODE", payload, name⟩ =
      some (CodecWorker.Reply.ok payload) := by
  simp only [CodecWorker.onmessage]
  rw [if_pos trivial, if_neg h1, if_neg h2, if_neg h3, if_neg h4]

/-- Witness for C9 with the unregistered name `"raw"`. -/
theorem claim_C9_witness :
    CodecWorker.onmessage lzUnavailable ⟨js "DECODE", js "abc", js "raw"⟩ =
      some (CodecWorker.Reply.ok (js "abc")) :=
  claim_C9_unknown_name_passthrough lzUnavailable (js "abc") (js "raw")
    (by decide) (by decide) (by decide) (by decide)

/-! ### Decode fallback and the LZString short-string guard -/

theorem lzDecodeGo_id (lz : LZ) (val : JSStr)
    (h : ∀ m : LZFormat, ∀ d, lzApply lz m val = some d →
      d = [] ∨ d = val ∨
        (jsonPretty d = none ∧ LZStringCodec.isMeaningfulText d = false)) :
    ∀ ms : List LZFormat, LZStringCodec.decodeGo lz val ms = val
  | [] => rfl
  | m :: rest => by
      simp only [LZStringCodec.decodeGo]
      cases ha : lzApply lz m val with
      | none => exact lzDecodeGo_id lz val h rest
      | some d =>
          dsimp only
          rcases h m d ha with hd | hd | ⟨hp, hm⟩
          · rw [if_neg (by simp [hd])]
            exact lzDecodeGo_id lz val h rest
          · rw [if_neg (by simp [hd])]
            exact lzDecodeGo_id lz val h rest
          · by_cases hne : d ≠ [] ∧ d ≠ val
            · rw [if_pos hne, hp, hm]
              simp [lzDecodeGo_id lz val h rest]
            · rw [if_neg hne]
              exact lzDecodeGo_id lz val h rest

/-- Claim C3: each codec's `decode` is a total string-to-string function (by
its type in this model, mirroring the try/catch structure of the source),
and whenever the underlying decode attempt fails (unparseable JSON, a
failing `atob`, a failing `decodeURIComponent`, or no usable decompression
variant) it returns the original input unchanged. -/
theorem claim_C3_decode_never_throws (lz : LZ) (val : JSStr) :
    (jsonPretty val = none → JsonCodec.decode val = val) ∧
      (atob val = none → Base64Codec.decode val = val) ∧
      (pctDecode val = none → UrlCodec.decode val = val) ∧
      ((∀ m : LZFormat, ∀ d, lzApply lz m val = some d →
          d = [] ∨ d = val ∨
            (jsonPretty d = none ∧ LZStringCodec.isMeaningfulText d = false)) →
        LZStringCodec.decode lz val = val) := by
  refine ⟨fun h => ?_, fun h => ?_, fun h => ?_, fun h => ?_⟩
  · simp [JsonCodec.decode, h]
  · simp [Base64Codec.decode, h]
  · simp [UrlCodec.decode, h]
  · exact lzDecodeGo_id lz val h lzMethods

/-- Witness for C3 at the input `"%"`, on which every codec's internal
attempt fails. -/
theorem claim_C3_witness :
    JsonCodec.decode (js "%") = js "%" ∧ Base64Codec.decode (js "%") = js "%" ∧
      UrlCodec.decode (js "%") = js "%" ∧
      LZStringCodec.decode lzUnavailable (js "%") = js "%" := by
  obtain ⟨a, b, c, d⟩ := claim_C3_decode_never_throws lzUnavailable (js "%")
  exact ⟨a (by decide), b (by decide), c (by decide),
    d (fun m d' hmd => by cases m <;> simp [lzApply, lzUnavailable] at hmd)⟩

theorem lzScan_short (val : JSStr) (hlen : val.length < 20) :
    ∀ rs : List (LZFormat × JSStr),
      (∀ fd ∈ rs, jsonParses fd.2 = false) → LZStringCodec.scan val rs = 0
  | [], _ => rfl
  | (fmt, d) :: rest, hall => by
      simp only [LZStringCodec.scan]
      rw [hall (fmt, d) (List.mem_cons_self _ _)]
      simp only [Bool.false_eq_true, if_false]
      rw [if_pos hlen]
      exact lzScan_short val hlen rest
        (fun fd hfd => hall fd (List.mem_cons_of_mem _ hfd))

theorem results_mem_apply (lz : LZ) (val : JSStr) (fd : LZFormat × JSStr)
    (hfd : fd ∈ LZStringCodec.results lz val) :
    lzApply lz fd.1 val = some fd.2 := by
  simp only [LZStringCodec.results] at hfd
  rw [List.mem_filterMap] at hfd
  obtain ⟨a, ha, hfa⟩ := hfd
  cases hd : a.2 with
  | none => rw [hd] at hfa; exact Option.noConfusion hfa
  | some d =>
      rw [hd] at hfa
      dsimp only at hfa
      split at hfa
      · rw [Option.some.injEq] at hfa
        subst hfa
        simp only [List.mem_cons, List.not_mem_nil, or_false] at ha
        rcases ha with rfl | rfl | rfl | rfl <;> simpa [lzApply] using hd
      · exact Option.noConfusion hfa

/-- Claim C4 (amended): for inputs shorter than 20 characters that do not
start with the UTF-16 signature character, if no decompression variant
yields valid JSON then `LZStringCodec.canDecode` returns 0; an input of
length at least 4 starting with the signature character scores 95
immediately, for every possible decompression behaviour (so without
decompressing). -/
theorem claim_C4_short_guard_amended (lz : LZ) (val : JSStr) :
    (headIs val LZStringCodec.sigChar = false → val.length < 20 →
      (∀ m : LZFormat, ∀ d, lzApply lz m val = some d → jsonParses d = false) →
      LZStringCodec.canDecode lz val = 0) ∧
      (4 ≤ val.length → headIs val LZStringCodec.sigChar = true →
        LZStringCodec.canDecode lz val = 95) := by
  constructor
  · intro hsig hlen hjson
    simp only [LZStringCodec.canDecode, hsig, Bool.false_eq_true, if_false]
    split
    · rfl
    · split
      · rfl
      · exact lzScan_short val hlen _
          (fun fd hfd => hjson fd.1 fd.2 (results_mem_apply lz val fd hfd))
  · intro hlen hsig
    simp only [LZStringCodec.canDecode]
    rw [if_neg (by omega), if_pos hsig]

/-- Counterexample for C4 as stated: the four-character input `"ᯡbcd"` is
shorter than 20 characters and no decompression variant yields valid JSON
(here every variant fails outright), yet `canDecode` returns 95, not 0,
because of the signature fast-path. -/
theorem claim_C4_counterexample :
    (js "ᯡbcd").length < 20 ∧
      lzUnavailable.decompressFromUTF16 (js "ᯡbcd") = none ∧
      lzUnavailable.decompressFromBase64 (js "ᯡbcd") = none ∧
      lzUnavailable.decompressFromEncodedURIComponent (js "ᯡbcd") = none ∧
      lzUnavailable.decompress (js "ᯡbcd") = none ∧
      LZStringCodec.canDecode lzUnavailable (js "ᯡbcd") = 95 := by
  decide

/-- Witness for the amended C4: a short non-signature input with no usable
decompression scores 0, and a short signature input scores 95. -/
theorem claim_C4_witness :
    LZStringCodec.canDecode lzUnavailable (js "abcd") = 0 ∧
      LZStringCodec.canDecode lzUnavailable (js "ᯡxyz") = 95 :=
  ⟨(claim_C4_short_guard_amended lzUnavailable (js "abcd")).1 (by decide)
      (by decide)
      (fun m d hmd => by cases m <;> simp [lzApply, lzUnavailable] at hmd),
    (claim_C4_short_guard_amended lzUnavailable (js "ᯡxyz")).2 (by decide)
      (by decide)⟩

/-- Claim C5: on the input `'{"url":"http%3A%2F%2Fexample.com"}'` the URL
codec scores 0 (the trimmed value starts with a brace) while the JSON codec
scores 100, and detection returns the JSON codec. -/
theorem claim_C5_json_beats_url :
    UrlCodec.canDecode (js "\x7b\"url\":\"http%3A%2F%2Fexample.com\"\x7d") = 0 ∧
      JsonCodec.canDecode (js "\x7b\"url\":\"http%3A%2F%2Fexample.com\"\x7d") = 100 ∧
      CodecManager.detect lzUnavailable
          (some (js "\x7b\"url\":\"http%3A%2F%2Fexample.com\"\x7d")) =
        some CodecId.json := by
  decide

/-! ### Base64 alphabet and meaningful-text equivalences -/

theorem takeWhile_all (p : Char → Bool) : ∀ l : JSStr, (l.takeWhile p).all p = true
  | [] => rfl
  | c :: l => by
      simp only [List.takeWhile]
      cases hc : p c
      · rfl
      · simp [List.all_cons, hc, takeWhile_all p l]

theorem dropWhile_append_of_all (p : Char → Bool) :
    ∀ A B : JSStr, A.all p = true → (A ++ B).dropWhile p = B.dropWhile p
  | [], _, _ => rfl
  | c :: A, B, h => by
      simp only [List.all_cons, Bool.and_eq_true] at h
      simp only [List.cons_append, List.dropWhile]
      rw [h.1]
      exact dropWhile_append_of_all p A B h.2

theorem splitOK_of_decomp (v A E : JSStr) (hv : v = A ++ E)
    (hA : A.all isB64Char = true) (hE : E = List.replicate E.length '=') :
    b64SplitOK v E.length = true := by
  subst hv
  simp only [b64SplitOK, List.length_append]
  have h1 : A.length + E.length - E.length = A.length := by omega
  rw [h1, List.take_left, List.drop_left, hA,
    decide_eq_true (Nat.le_add_left E.length A.length),
    decide_eq_true hE]
  rfl

theorem b64Regex_true_spec (v : JSStr) (h : b64Regex v = true) :
    b64AlphabetSpec v = true := by
  have hv : v = v.takeWhile isB64Char ++ v.dropWhile isB64Char :=
    (List.takeWhile_append_dropWhile isB64Char v).symm
  have hA : (v.takeWhile isB64Char).all isB64Char = true := takeWhile_all _ v
  simp only [b64Regex] at h
  split at h
  next heq =>
    have h0 := splitOK_of_decomp v _ _ hv hA (by rw [heq]; rfl)
    rw [heq] at h0
    simp only [List.length_nil] at h0
    simp [b64AlphabetSpec, h0]
  next heq =>
    have h0 := splitOK_of_decomp v _ _ hv hA (by rw [heq]; rfl)
    rw [heq] at h0
    simp only [List.length_cons, List.length_nil] at h0
    simp [b64AlphabetSpec, h0]
  next heq =>
    have h0 := splitOK_of_decomp v _ _ hv hA (by rw [heq]; rfl)
    rw [heq] at h0
    simp only [List.length_cons, List.length_nil] at h0
    simp [b64AlphabetSpec, h0]
  next => exact Bool.noConfusion h

theorem spec_b64Regex (v : JSStr) (n : Nat) (hn2 : n ≤ 2)
    (hn : b64SplitOK v n = true) : b64Regex v = true := by
  simp only [b64SplitOK, Bool.and_eq_true, decide_eq_true_eq] at hn
  obtain ⟨⟨hle, hall⟩, hdrop⟩ := hn
  have hsplit : v.dropWhile isB64Char =
      (v.drop (v.length - n)).dropWhile isB64Char := by
    conv_lhs => rw [← List.take_append_drop (v.length - n) v]
    exact dropWhile_append_of_all _ _ _ hall
  simp only [b64Regex, hsplit, hdrop]
  interval_cases n <;> decide

theorem b64Regex_eq_spec (v : JSStr) : b64Regex v = b64AlphabetSpec v := by
  by_cases h : b64AlphabetSpec v = true
  · rw [h]
    by_cases h0 : b64SplitOK v 0 = true
    · exact spec_b64Regex v 0 (by omega) h0
    · by_cases h1 : b64SplitOK v 1 = true
      · exact spec_b64Regex v 1 (by omega) h1
      · by_cases h2 : b64SplitOK v 2 = true
        · exact spec_b64Regex v 2 (by omega) h2
        · rw [Bool.not_eq_true] at h0 h1 h2
          rw [b64AlphabetSpec, h0, h1, h2] at h
          exact Bool.noConfusion h
  · rw [Bool.not_eq_true] at h
    rw [h]
    cases hr : b64Regex v
    · rfl
    · rw [b64Regex_true_spec v hr] at h
      exact Bool.noConfusion h

theorem b64Meaningful_eq_spec (d : JSStr) :
    Base64Codec.isMeaningfulText d = meaningfulTextSpec d := by
  cases d with
  | nil => rfl
  | cons c r =>
      have hlen : ((c :: r) : JSStr).length ≠ 0 := by simp
      have hpos : (0 : ℚ) < (((c :: r) : JSStr).length : ℚ) := by
        exact_mod_cast Nat.pos_of_ne_zero hlen
      simp only [Base64Codec.isMeaningfulText, meaningfulTextSpec, if_neg hlen]
      rw [decide_eq_decide]
      constructor
      · intro h
        refine ⟨by simp, ?_⟩
        rw [div_lt_div_iff₀ (by norm_num) hpos]
        have h10 : 9 * (((c :: r) : JSStr).length) <
            printableCount (c :: r) * 10 := by omega
        exact_mod_cast h10
      · rintro ⟨-, h⟩
        rw [div_lt_div_iff₀ (by norm_num) hpos] at h
        have h10 : 9 * (((c :: r) : JSStr).length) <
            printableCount (c :: r) * 10 := by exact_mod_cast h
        omega

/-- Claim C6: `Base64Codec.canDecode` behaves exactly as claimed: 0 for
inputs shorter than 4 or outside the base64 shape (letters, digits, `+`,
`/`, up to two trailing `=`); otherwise 100 when the decoded content parses
as JSON, 80 when the decoded content is meaningful text (strictly more than
90 percent printable, the empty string never meaningful), and 0 otherwise,
including when decoding itself fails. -/
theorem claim_C6_base64_canDecode_spec (val : JSStr) :
    Base64Codec.canDecode val = b64CanDecodeSpec val := by
  simp only [Base64Codec.canDecode, b64CanDecodeSpec, b64Regex_eq_spec,
    b64Meaningful_eq_spec]
  by_cases h1 : val.length < 4
  · rw [if_pos h1, if_pos (Or.inl h1)]
  · rw [if_neg h1]
    by_cases h2 : b64AlphabetSpec val = true
    · rw [if_neg (by simp [h2]), if_neg (by simp [h1, h2])]
    · rw [Bool.not_eq_true] at h2
      rw [if_pos (by simp [h2]), if_pos (Or.inr h2)]

/-- Claim C7 (amended): for inputs shorter than 4 characters the LZString
and Base64 codecs always score 0 and `detect` returns either no codec, the
JSON codec or the URL codec; on the spec's example `'ab'` it returns no
codec.  (As stated, the claim that every such input yields no codec is
false: `'{}'` is detected as JSON.) -/
theorem claim_C7_short_inputs_amended (lz : LZ) (val : JSStr)
    (hlen : val.length < 4) :
    LZStringCodec.canDecode lz val = 0 ∧ Base64Codec.canDecode val = 0 ∧
      (CodecManager.detect lz (some val) = none ∨
        CodecManager.detect lz (some val) = some CodecId.json ∨
        CodecManager.detect lz (some val) = some CodecId.url) ∧
      CodecManager.detect lz (some (js "ab")) = none := by
  have hlz : LZStringCodec.canDecode lz val = 0 := by
    simp only [LZStringCodec.canDecode]
    rw [if_pos hlen]
  have hb : Base64Codec.canDecode val = 0 := by
    simp only [Base64Codec.canDecode]
    rw [if_pos hlen]
  refine ⟨hlz, hb, ?_, ?_⟩
  · cases hdet : CodecManager.detect lz (some val) with
    | none => exact Or.inl rfl
    | some c =>
        obtain ⟨hmem, h50⟩ := detect_mem_score lz val c hdet
        simp only [CodecManager.codecs] at hmem
        fin_cases hmem
        · exact Or.inr (Or.inl rfl)
        · exfalso
          simp only [canDecodeOf, hlz] at h50
          omega
        · exfalso
          simp only [canDecodeOf, hb] at h50
          omega
        · exact Or.inr (Or.inr rfl)
  · have hj : JsonCodec.canDecode (js "ab") = 0 := by decide
    have hb2 : Base64Codec.canDecode (js "ab") = 0 := by decide
    have hu2 : UrlCodec.canDecode (js "ab") = 0 := by decide
    have hl2 : LZStringCodec.canDecode lz (js "ab") = 0 := by
      simp only [LZStringCodec.canDecode]
      rw [if_pos (by decide)]
    simp [CodecManager.detect, CodecManager.firstPass, CodecManager.secondPass,
      CodecManager.codecs, canDecodeOf, hj, hb2, hu2, hl2]

/-- Counterexample for C7 as stated: the two-character input `'{}'` is
shorter than 4 characters yet `detect` returns the JSON codec, not `null`. -/
theorem claim_C7_counterexample :
    (js "\x7b\x7d").length < 4 ∧
      CodecManager.detect lzUnavailable (some (js "\x7b\x7d")) =
        some CodecId.json := by decide

/-- Witness for the amended C7 at the spec's own example `'ab'`. -/
theorem claim_C7_witness :
    LZStringCodec.canDecode lzUnavailable (js "ab") = 0 ∧
      Base64Codec.canDecode (js "ab") = 0 ∧
      (CodecManager.detect lzUnavailable (some (js "ab")) = none ∨
        CodecManager.detect lzUnavailable (some (js "ab")) = some CodecId.json ∨
        CodecManager.detect lzUnavailable (some (js "ab")) = some CodecId.url) ∧
      CodecManager.detect lzUnavailable (some (js "ab")) = none :=
  claim_C7_short_inputs_amended lzUnavailable (js "ab") (by decide)
